import Mathlib

/-!
# datasubst — verification of the template-rendering pipeline

Shallow embedding of the core of `datasubst` (a Go-template based
`envsubst`-style tool).  Go strings are embedded as `List Char` (wrapped in
`String` where convenient), Go's `interface{}` decoded-data values as the
tagged union `Value`, and Go runtime panics as `Option.none` / explicit
error constructors.  The program's own functions (`getSubTree`, `parseEnv`,
`countTrue`, the delimiter validation and the data-source selection in
`main`) are translated from the source; the external libraries the program
calls (Go `text/template`, `encoding/json`, `gopkg.in/yaml.v3`) are
modelled from the specification, as marked in their doc comments.
-/

/-! ## Generic Value model

The tagged union produced by decoding JSON/YAML into `interface{}`:
null, boolean, number, string, sequence, string-keyed mapping
(spec §3 "Generic Value").  Mutual inductives are used instead of nested
`List` so that structural mutual recursion and induction are available. -/

mutual

inductive Value where
  | null : Value
  | bool (b : Bool) : Value
  | num (n : Int) : Value
  | str (s : String) : Value
  | arr (items : VList) : Value
  | obj (fields : FList) : Value
deriving DecidableEq

/-- A sequence of `Value`s (the `[]interface{}` case). -/
inductive VList where
  | nil : VList
  | cons (hd : Value) (tl : VList) : VList
deriving DecidableEq

/-- A mapping from string keys to `Value`s (the `map[string]interface{}` case). -/
inductive FList where
  | nil : FList
  | cons (key : String) (val : Value) (tl : FList) : FList
deriving DecidableEq

end

/-- Key lookup in a mapping; `none` models Go's comma-ok `false` /
zero-value result for an absent key. -/
def FList.lookup (k : String) : FList → Option Value
  | .nil => none
  | .cons key v tl => if key = k then some v else tl.lookup k

/-! ## Character-list string helpers

Go's `strings.Split` on a one-character separator, embedded on `List Char`.
`splitOnChar c l` returns the (non-separator) pieces of `l`, always at least
one piece, exactly like `strings.Split(l, c)`. -/

def splitOnChar (c : Char) (l : List Char) : List (List Char) :=
  match l with
  | [] => [[]]
  | x :: xs =>
    let r := splitOnChar c xs
    if x = c then [] :: r
    else
      match r with
      | [] => [[x]]
      | p :: ps => (x :: p) :: ps

/-! ## Subtree Navigator (`getSubTree`, source `part_002` lines 119–126)

```go
func getSubTree(data interface{}, substree string) interface{} {
    st := strings.Split(subtree, ".")[1:]
    for _, k := range st {
        v := data.(map[string]interface{})
        data = v[k]
    }
    return data
}
```

The function reads the package-level variable `subtree` (modelled as the
explicit first argument `subtreeGlobal`), not its parameter `substree`.
The unchecked type assertion `data.(map[string]interface{})` panics when
`data` is not a mapping (including a `nil` obtained from a previous absent
key); the panic is modelled as `none`.  An absent key yields the zero value
`nil`, modelled as `Value.null`. -/

/-- The segment list the loop ranges over: `strings.Split(subtree, ".")[1:]`. -/
def walkedSegments (subtree : String) : List String :=
  ((splitOnChar '.' subtree.data).drop 1).map String.mk

def getSubTreeLoop : Value → List String → Option Value
  | data, [] => some data
  | data, k :: ks =>
    match data with
    | .obj fields => getSubTreeLoop ((fields.lookup k).getD .null) ks
    | _ => none

def getSubTree (subtreeGlobal : String) (data : Value) (substree : String) : Option Value :=
  getSubTreeLoop data (walkedSegments subtreeGlobal)

/-- Modelled from the spec (§4.2): the intended navigator result — "if at
any step the current value is not a mapping, or the key is absent, the
result is an absent/nil value" — total, never a runtime fault. -/
def navigateSpec : Value → List String → Value
  | v, [] => v
  | .obj fields, k :: ks => navigateSpec ((fields.lookup k).getD .null) ks
  | _, _ :: _ => .null

/-- The spec's segment derivation: split the dotted path on `.`, ignoring a
leading `.` (spec §3 "Subtree Path"). -/
def dropLeadingDot (l : List Char) : List Char :=
  match l with
  | '.' :: t => t
  | l => l

def specSegments (p : String) : List String :=
  (splitOnChar '.' (dropLeadingDot p.data)).map String.mk

/-- The walk in which every step succeeds: the current value is a mapping
and the segment is present (spec §4.2 "Success: returns the Value found
after consuming all segments"). -/
def walkOk : Value → List String → Option Value
  | v, [] => some v
  | .obj fields, k :: ks =>
    match fields.lookup k with
    | some w => walkOk w ks
    | none => none
  | _, _ :: _ => none

/-! ## Environment decoding (`parseEnv`, source `part_002` lines 156–163)

```go
func parseEnv() (interface{}, error) {
    data := make(map[string]string)
    for _, v := range os.Environ() {
        envKv := strings.Split(v, "=")
        data[envKv[0]] = envKv[1]
    }
    return data, nil
}
```

The environment is modelled as the list of `NAME=VALUE` entry strings the
process would enumerate.  `envKv[1]` indexes past the end (a panic) when an
entry contains no `=`; that panic is modelled as `none`. -/

def parseEnvEntry (entry : String) : Option (String × String) :=
  match (splitOnChar '=' entry.data).map String.mk with
  | k :: v :: _ => some (k, v)
  | _ => none

def parseEnv (environ : List String) : Option (List (String × String)) :=
  environ.mapM parseEnvEntry

/-- Modelled from the spec (§4.1 environment decoding): "only the first `=`
splits name from value; everything after remains part of the value". -/
def specEnvEntry (entry : String) : Option (String × String) :=
  let name := entry.data.takeWhile (· ≠ '=')
  match entry.data.dropWhile (· ≠ '=') with
  | '=' :: value => some (String.mk name, String.mk value)
  | _ => none

/-! ## Data-source selection in `main` (source `part_002` lines 68–85 and
`parseArgs` lines 219–221, `countTrue` lines 165–173) -/

/-- `countTrue` from the source, counting the `true`s of its arguments. -/
def countTrue (bs : List Bool) : Nat :=
  bs.foldl (fun n v => if v then n + 1 else n) 0

/-- The terminal failures of the data stage: the `parseArgs` usage check
(`log.Fatal` when not exactly one data source is selected), the
`getSubTree` runtime panic, and the `parseEnv` indexing panic. -/
inductive PipeError where
  | usage : PipeError
  | navPanic : PipeError
  | envPanic : PipeError
deriving DecidableEq

/-- A flat string-to-string mapping as a `Value` (how the rendered data
root sees `parseEnv`'s `map[string]string`). -/
def envToValue (entries : List (String × String)) : Value :=
  Value.obj (entries.foldr (fun kv acc => FList.cons kv.1 (Value.str kv.2) acc) FList.nil)

/-- The data stage of `main`: the `parseArgs` usage check followed by
data-source selection and optional subtree extraction.  `jsonVal` and
`yamlVal` stand for the values the external decoders would produce for the
two data files. -/
def dataStage (jsonDataFile yamlDataFile : String) (envFlag : Bool) (subtree : String)
    (jsonVal yamlVal : Value) (environ : List String) : Except PipeError Value :=
  if countTrue [jsonDataFile != "", yamlDataFile != "", envFlag] ≠ 1 then
    .error .usage
  else if jsonDataFile != "" then
    if subtree != "" then
      match getSubTree subtree jsonVal subtree with
      | some v => .ok v
      | none => .error .navPanic
    else .ok jsonVal
  else if yamlDataFile != "" then
    if subtree != "" then
      match getSubTree subtree yamlVal subtree with
      | some v => .ok v
      | none => .error .navPanic
    else .ok yamlVal
  else
    match parseEnv environ with
    | some entries => .ok (envToValue entries)
    | none => .error .envPanic

/-- The result of the environment branch of the data stage, on its own. -/
def envDataResult (environ : List String) : Except PipeError Value :=
  match parseEnv environ with
  | some entries => .ok (envToValue entries)
  | none => .error .envPanic

/-! ## Delimiter validation (`main`, source `part_002` lines 92–98)

```go
if delimiters != "" {
    if strings.Count(delimiters, ":") != 1 || delimiters[len(delimiters)-1:] == ":" || delimiters[0:1] == ":" {
        log.Fatal("Error: invalid delimiter format. ...")
    }
    d := strings.Split(delimiters, ":")
    tpl.Delims(d[0], d[1])
}
```

`none` models the `log.Fatal` (the ParseError of spec §4.3); `some (l, r)`
models `tpl.Delims(l, r)`; the empty spec installs the engine defaults. -/

def setDelims (delimiters : String) : Option (String × String) :=
  if delimiters != "" then
    if delimiters.data.count ':' ≠ 1 ∨ delimiters.data.getLast? = some ':'
        ∨ delimiters.data.head? = some ':' then
      none
    else
      let d := splitOnChar ':' delimiters.data
      some (String.mk (d.headD []), String.mk ((d.drop 1).headD []))
  else some ("\x7b\x7b", "\x7d\x7d")

/-- The spec's "left side of that separator": the part before the first `:`. -/
def leftSide (delimiters : String) : String :=
  String.mk (delimiters.data.takeWhile (· ≠ ':'))

/-- The spec's "right side of that separator": the part after the first `:`. -/
def rightSide (delimiters : String) : String :=
  String.mk ((delimiters.data.dropWhile (· ≠ ':')).drop 1)

/-! ## Number rendering and reading helpers (shared by the decoder and
template-engine models) -/

def digitChar (d : Nat) : Char := Char.ofNat (48 + d)

def isDigitCh (c : Char) : Bool := 48 ≤ c.toNat && c.toNat ≤ 57

def charDigit (c : Char) : Nat := c.toNat - 48

/-- Big-endian decimal digits of `n`, with explicit fuel (any fuel ≥ n
suffices; `natChars` supplies it). -/
def natCharsAux : Nat → Nat → List Char
  | 0, _ => []
  | fuel + 1, n => if n = 0 then [] else natCharsAux fuel (n / 10) ++ [digitChar (n % 10)]

def natChars (n : Nat) : List Char :=
  if n = 0 then ['0'] else natCharsAux (n + 1) n

def intChars (n : Int) : List Char :=
  if n < 0 then '-' :: natChars n.natAbs else natChars n.toNat

/-- The numeric value of a big-endian digit run. -/
def digitsVal (ds : List Char) : Nat :=
  ds.foldl (fun a c => 10 * a + charDigit c) 0

/-! ## Flow-syntax decoder, modelled from the spec

Modelled from the spec (§4.1 Value Model Loader): the external decoders
(`encoding/json` for `parseJSON`, `gopkg.in/yaml.v3` for `parseYAML`) are
not part of this repository; they are modelled as one recursive-descent
reader of the common flow syntax (JSON's syntax, which YAML's flow style
extends), parameterised by the set `qs` of accepted string-quote
characters: `parseJSONm` accepts only `"`, `parseYAMLm` also the YAML
single quote.  Numbers are modelled as integers.  Fuel decreases on every
recursive call; any fuel exceeding the input length suffices. -/

def squote : Char := Char.ofNat 39

def skipWs (l : List Char) : List Char := l.dropWhile (· = ' ')

/-- `leadsWith pat l` is true when `pat` is an initial run of `l`. -/
def leadsWith : List Char → List Char → Bool
  | [], _ => true
  | _ :: _, [] => false
  | c :: cs, d :: ds => c = d && leadsWith cs ds

mutual

def parseVal (qs : List Char) : Nat → List Char → Option (Value × List Char)
  | 0, _ => none
  | fuel + 1, input =>
    match skipWs input with
    | [] => none
    | c :: cs =>
      if c ∈ qs then
        match cs.dropWhile (· ≠ c) with
        | [] => none
        | _ :: rest => some (.str (String.mk (cs.takeWhile (· ≠ c))), rest)
      else if c = '[' then
        match skipWs cs with
        | ']' :: rest => some (.arr .nil, rest)
        | _ =>
          match parseItems qs fuel cs with
          | some (items, rest) => some (.arr items, rest)
          | none => none
      else if c = '\x7b' then
        match skipWs cs with
        | '\x7d' :: rest => some (.obj .nil, rest)
        | _ =>
          match parseFields qs fuel cs with
          | some (fields, rest) => some (.obj fields, rest)
          | none => none
      else if leadsWith "null".data (c :: cs) then some (.null, cs.drop 3)
      else if leadsWith "true".data (c :: cs) then some (.bool true, cs.drop 3)
      else if leadsWith "false".data (c :: cs) then some (.bool false, cs.drop 4)
      else if c = '-' then
        match cs.takeWhile isDigitCh with
        | [] => none
        | ds => some (.num (-(Int.ofNat (digitsVal ds))), cs.dropWhile isDigitCh)
      else if isDigitCh c then
        some (.num (Int.ofNat (digitsVal ((c :: cs).takeWhile isDigitCh))),
              (c :: cs).dropWhile isDigitCh)
      else none

def parseItems (qs : List Char) : Nat → List Char → Option (VList × List Char)
  | 0, _ => none
  | fuel + 1, input =>
    match parseVal qs fuel input with
    | none => none
    | some (v, rest) =>
      match skipWs rest with
      | ',' :: rest1 =>
        match parseItems qs fuel rest1 with
        | some (items, rest2) => some (.cons v items, rest2)
        | none => none
      | ']' :: rest1 => some (.cons v .nil, rest1)
      | _ => none

def parseFields (qs : List Char) : Nat → List Char → Option (FList × List Char)
  | 0, _ => none
  | fuel + 1, input =>
    match skipWs input with
    | [] => none
    | c :: cs =>
      if c ∈ qs then
        match cs.dropWhile (· ≠ c) with
        | [] => none
        | _ :: afterKey =>
          match skipWs afterKey with
          | ':' :: afterColon =>
            match parseVal qs fuel afterColon with
            | some (v, rest) =>
              match skipWs rest with
              | ',' :: rest1 =>
                match parseFields qs fuel rest1 with
                | some (fields, rest2) =>
                  some (.cons (String.mk (cs.takeWhile (· ≠ c))) v fields, rest2)
                | none => none
              | '\x7d' :: rest1 => some (.cons (String.mk (cs.takeWhile (· ≠ c))) v .nil, rest1)
              | _ => none
            | none => none
          | _ => none
      else none

end

/-- A whole document: one value, then only trailing spaces. -/
def parseDoc (qs : List Char) (s : List Char) : Option Value :=
  match parseVal qs (s.length + 1) s with
  | some (v, rest) => if skipWs rest = [] then some v else none
  | none => none

/-- Modelled from the spec: `parseJSON`'s decoding step (the external
`encoding/json` decoder), restricted to the flow grammar above. -/
def parseJSONm (s : String) : Option Value := parseDoc ['"'] s.data

/-- Modelled from the spec: `parseYAML`'s decoding step (the external
`gopkg.in/yaml.v3` decoder); accepts the same flow grammar, with YAML's
single-quoted strings as well. -/
def parseYAMLm (s : String) : Option Value := parseDoc ['"', squote] s.data

/-! ## Canonical encoders

`encValG q sp` writes a value in flow syntax with string quote `q` and the
(all-space) filler `sp` after `:` and `,`.  `jsonEncode` (quote `"`, no
filler) produces a minimal JSON document; `yamlEncodeFlow` (single quote,
one space of filler) produces a YAML flow-style document of the same
structure — same keys, same values, different bytes. -/

mutual

def encValG (q : Char) (sp : List Char) : Value → List Char
  | .null => "null".data
  | .bool b => if b then "true".data else "false".data
  | .num n => intChars n
  | .str s => q :: s.data ++ [q]
  | .arr items => '[' :: encItemsG q sp items ++ [']']
  | .obj fields => '\x7b' :: encFieldsG q sp fields ++ ['\x7d']

def encItemsG (q : Char) (sp : List Char) : VList → List Char
  | .nil => []
  | .cons v .nil => encValG q sp v
  | .cons v (.cons w tl) =>
    encValG q sp v ++ ',' :: sp ++ encItemsG q sp (.cons w tl)

def encFieldsG (q : Char) (sp : List Char) : FList → List Char
  | .nil => []
  | .cons k v .nil => q :: k.data ++ q :: ':' :: sp ++ encValG q sp v
  | .cons k v (.cons k1 w tl) =>
    q :: k.data ++ q :: ':' :: sp ++ encValG q sp v ++ ',' :: sp
      ++ encFieldsG q sp (.cons k1 w tl)

end

def jsonEncode (v : Value) : String := String.mk (encValG '"' [] v)

def yamlEncodeFlow (v : Value) : String := String.mk (encValG squote [' '] v)

/-- Strings (and keys) that round-trip through either quoting style: no
quote character of either decoder occurs in them. -/
def plainChars (l : List Char) : Bool := l.all (fun c => c ≠ '"' && c ≠ squote)

mutual

def wfV : Value → Bool
  | .null => true
  | .bool _ => true
  | .num _ => true
  | .str s => plainChars s.data
  | .arr items => wfItems items
  | .obj fields => wfFields fields

def wfItems : VList → Bool
  | .nil => true
  | .cons v tl => wfV v && wfItems tl

def wfFields : FList → Bool
  | .nil => true
  | .cons k v tl => plainChars k.data && wfV v && wfFields tl

end


/-! ## Template Engine, modelled from the spec

Modelled from the spec (§4.3): the engine itself is the external Go
`text/template` library, not code of this repository; what the repository
contributes is the configuration — `tpl.Option("missingkey=error")` exactly
when the strict flag is set (`main`, `part_002` lines 88–91), and the
delimiters installed above.  The model covers the fragment the spec
describes: literal text and field-access actions `.k1.k2...` between a left
and a right delimiter, rendered against a Generic Value root under a
missing-key policy (`strict = true` is `missingkey=error`, `strict = false`
the `default` policy, which substitutes the zero value — the empty string —
for a missing key). -/

/-- A compiled template chunk: literal text, or a field-access action. -/
inductive Chunk where
  | lit (text : List Char) : Chunk
  | field (path : List String) : Chunk
deriving DecidableEq

/-- The `RenderError` of the spec: identifies the missing key path. -/
structure RenderErr where
  path : List String
deriving DecidableEq

/-- Splits `text` at the first occurrence of `sep`: the part before it and
the part after it.  `none` when `sep` does not occur (or `text` is empty). -/
def splitFirstSub (sep : List Char) : List Char → Option (List Char × List Char)
  | [] => none
  | c :: cs =>
    if leadsWith sep (c :: cs) then some ([], (c :: cs).drop sep.length)
    else
      match splitFirstSub sep cs with
      | some (p, r) => some (c :: p, r)
      | none => none

/-- `sep` occurs somewhere in `text` (as a contiguous run). -/
def occursIn (sep : List Char) : List Char → Bool
  | [] => leadsWith sep []
  | c :: cs => leadsWith sep (c :: cs) || occursIn sep cs

def trimSpaces (l : List Char) : List Char :=
  ((l.dropWhile (· = ' ')).reverse.dropWhile (· = ' ')).reverse

/-- An action is a dotted field-access chain `.k1.k2...` (possibly
surrounded by spaces); anything else is a parse failure in this model. -/
def parseAction (action : List Char) : Option (List String) :=
  match trimSpaces action with
  | '.' :: rest => some ((splitOnChar '.' rest).map String.mk)
  | _ => none

/-- Parsing: scan for the left delimiter; text before it is literal, the
action runs to the right delimiter (unbalanced markers are a ParseError,
modelled as `none`).  Fuel decreases on every recursive call; any fuel
exceeding the text length suffices. -/
def parseTpl (ld rd : List Char) : Nat → List Char → Option (List Chunk)
  | 0, _ => none
  | fuel + 1, text =>
    match splitFirstSub ld text with
    | none => some [Chunk.lit text]
    | some (pre, rest) =>
      match splitFirstSub rd rest with
      | none => none
      | some (action, rest2) =>
        match parseAction action with
        | none => none
        | some path =>
          match parseTpl ld rd fuel rest2 with
          | none => none
          | some chunks => some (Chunk.lit pre :: Chunk.field path :: chunks)

def parseTemplate (ld rd text : String) : Option (List Chunk) :=
  parseTpl ld.data rd.data (text.data.length + 1) text.data

/-- Field-access evaluation against the data root: successive key lookups.
`none` is the missing-key situation (absent key, or a non-mapping node met
before the path ends). -/
def lookupPath : Value → List String → Option Value
  | v, [] => some v
  | .obj fields, k :: ks => (fields.lookup k).bind (fun w => lookupPath w ks)
  | _, _ :: _ => none

/-- Default stringification of a rendered value (spec §4.4: scalars as the
substitution language's stringification; compound values in their flow
encoding; null as the empty zero value). -/
def showValue : Value → List Char
  | .null => []
  | .bool b => if b then "true".data else "false".data
  | .num n => intChars n
  | .str s => s.data
  | .arr items => encValG '"' [] (.arr items)
  | .obj fields => encValG '"' [] (.obj fields)

/-- Rendering a chunk list under missing-key policy `strict`: a missing key
renders as the zero value (empty) under the default policy and aborts with
a `RenderErr` naming the key path under `missingkey=error`. -/
def renderChunks (strict : Bool) (root : Value) : List Chunk → Except RenderErr (List Char)
  | [] => .ok []
  | Chunk.lit s :: rest => (renderChunks strict root rest).map (s ++ ·)
  | Chunk.field p :: rest =>
    match lookupPath root p with
    | some w => (renderChunks strict root rest).map (showValue w ++ ·)
    | none =>
      if strict then .error ⟨p⟩
      else (renderChunks strict root rest).map ([] ++ ·)

/-- The observable outcome of preparing and rendering one template. -/
inductive RunResult where
  | parseFailed : RunResult
  | rendered (out : String) : RunResult
  | renderFailed (e : RenderErr) : RunResult
deriving DecidableEq

/-- Parse-then-render, as `main` does (`tpl.Parse` then `tpl.Execute`);
`strict` is the strict flag, mapped to the engine's missing-key policy as
in `main` lines 88–91. -/
def runTemplate (strict : Bool) (ld rd text : String) (root : Value) : RunResult :=
  match parseTemplate ld rd text with
  | none => .parseFailed
  | some chunks =>
    match renderChunks strict root chunks with
    | .ok out => .rendered (String.mk out)
    | .error e => .renderFailed e

/-! # Theorems -/

/-! ## Helper lemmas on the string helpers -/

theorem splitOnChar_ne_nil (c : Char) (l : List Char) : splitOnChar c l ≠ [] := by
  induction l with
  | nil => simp [splitOnChar]
  | cons x xs ih =>
    simp only [splitOnChar]
    split
    · simp
    · match h : splitOnChar c xs with
      | [] => exact absurd h ih
      | p :: ps => simp

theorem splitOnChar_cons_sep (c : Char) (xs : List Char) :
    splitOnChar c (c :: xs) = [] :: splitOnChar c xs := by
  simp [splitOnChar]

theorem splitOnChar_no_sep (c : Char) (l : List Char) (h : c ∉ l) :
    splitOnChar c l = [l] := by
  induction l with
  | nil => rfl
  | cons x xs ih =>
    simp only [List.mem_cons, not_or] at h
    simp only [splitOnChar, if_neg (Ne.symm h.1), ih h.2]

theorem splitOnChar_append (c : Char) (a b : List Char) (h : c ∉ a) :
    splitOnChar c (a ++ c :: b) = a :: splitOnChar c b := by
  induction a with
  | nil => simpa using splitOnChar_cons_sep c b
  | cons x xs ih =>
    simp only [List.mem_cons, not_or] at h
    simp only [List.cons_append, splitOnChar, List.append_eq, if_neg (Ne.symm h.1), ih h.2]

/-! ## C10: `getSubTree` ignores its path parameter -/

/-- C10: the result of `getSubTree` is independent of its `substree`
parameter — for any two path strings the results agree, because the
function reads the package-level `subtree` variable (the `subtreeGlobal`
argument of the model) instead of its parameter. -/
theorem getSubTree_ignores_param (subtreeGlobal : String) (data : Value)
    (p1 p2 : String) :
    getSubTree subtreeGlobal data p1 = getSubTree subtreeGlobal data p2 := rfl

/-! ## C2: the subtree walk is not total — a non-mapping node panics -/

/-- C2 (claim right, code wrong): on a scalar data root and path `.a` the
source's `getSubTree` hits the unchecked type assertion
`data.(map[string]interface{})` and aborts with a runtime fault (modelled
`none`), where the spec's navigator contract (§4.2) yields the absent/nil
value without aborting. -/
theorem getSubTree_panics_on_scalar :
    getSubTree ".a" (Value.str "x") ".a" = none ∧
    navigateSpec (Value.str "x") ["a"] = Value.null ∧
    getSubTree ".a.b" (Value.obj .nil) ".a.b" = none ∧
    navigateSpec (Value.obj .nil) ["a", "b"] = Value.null := by
  refine ⟨rfl, rfl, ?_, rfl⟩
  decide

/-! ## C3: environment entries are split at every `=`, not the first -/

/-- C3 (claim right, code wrong): for the entry `A=B=C` the source's
`parseEnv` (which uses `strings.Split(v, "=")` and keeps field 1) binds `A`
to `"B"`, while the spec's first-`=`-only split binds `A` to the full value
`"B=C"`. -/
theorem parseEnv_truncates_value_at_eq :
    parseEnv ["A=B=C"] = some [("A", "B")] ∧
    specEnvEntry "A=B=C" = some ("A", "B=C") := by
  exact ⟨rfl, rfl⟩

/-! ## C8: subtree with environment source is ignored, not a UsageError -/

/-- C8 counterexample: with the environment source selected and the
non-empty subtree path `.x`, the data stage renders normally (the usage
check of `parseArgs` passes — it only counts data sources) instead of
failing with a `UsageError`. -/
theorem dataStage_env_subtree_not_usage :
    dataStage "" "" true ".x" Value.null Value.null ["A=1"]
      = .ok (Value.obj (.cons "A" (.str "1") .nil)) ∧
    dataStage "" "" true ".x" Value.null Value.null ["A=1"]
      ≠ .error PipeError.usage := by
  exact ⟨rfl, fun h => Except.noConfusion h⟩

/-- C8 amended: with the environment source selected, the data stage never
raises a usage error for a non-empty subtree path; the path is silently
ignored — the result is exactly the environment mapping, independent of
the subtree string and of the (unused) JSON/YAML values, and the subtree
navigator is never invoked. -/
theorem dataStage_env_ignores_subtree (subtree : String) (jsonVal yamlVal : Value)
    (environ : List String) :
    dataStage "" "" true subtree jsonVal yamlVal environ = envDataResult environ ∧
    dataStage "" "" true subtree jsonVal yamlVal environ ≠ .error PipeError.usage := by
  constructor
  · rfl
  · show envDataResult environ ≠ _
    unfold envDataResult
    cases parseEnv environ <;> simp

/-! ## C5: segment derivation and descent -/

theorem walkOk_imp_loop (segs : List String) (data v : Value)
    (h : walkOk data segs = some v) : getSubTreeLoop data segs = some v := by
  induction segs generalizing data with
  | nil => simpa [walkOk, getSubTreeLoop] using h
  | cons k ks ih =>
    cases data with
    | obj fields =>
      cases hlk : fields.lookup k with
      | none => simp [walkOk, hlk] at h
      | some w =>
        simp only [walkOk, hlk] at h
        simpa [getSubTreeLoop, hlk] using ih w h
    | null => simp [walkOk] at h
    | bool b => simp [walkOk] at h
    | num n => simp [walkOk] at h
    | str s => simp [walkOk] at h
    | arr items => simp [walkOk] at h

theorem walked_eq_spec_of_dot (p : String) (h : p.data.head? = some '.') :
    walkedSegments p = specSegments p := by
  obtain ⟨t, hp⟩ : ∃ t, p.data = '.' :: t := by
    cases hd : p.data with
    | nil => rw [hd] at h; simp at h
    | cons c cs => rw [hd] at h; simp at h; exact ⟨cs, by rw [h]⟩
  unfold walkedSegments specSegments
  rw [hp, splitOnChar_cons_sep]
  rfl

/-- C5: for a dotted path (leading `.`), the segment sequence the navigator
walks — `strings.Split(p, ".")[1:]` — is exactly the spec's "split on `.`
with the leading `.` ignored"; and when every lookup along those segments
succeeds, `getSubTree` descends through them in order and returns the
value found after consuming all of them. -/
theorem getSubTree_descends_spec_segments (p : String) (data v : Value)
    (hdot : p.data.head? = some '.')
    (hwalk : walkOk data (specSegments p) = some v) :
    walkedSegments p = specSegments p ∧ getSubTree p data p = some v := by
  have hseg := walked_eq_spec_of_dot p hdot
  refine ⟨hseg, ?_⟩
  unfold getSubTree
  rw [hseg]
  exact walkOk_imp_loop _ _ _ hwalk

/-- Witness for C5 at the spec's example: path `.key2.first` yields
segments `["key2","first"]` and the navigator returns the value there. -/
theorem getSubTree_descends_spec_segments_witness :
    specSegments ".key2.first" = ["key2", "first"] ∧
    walkedSegments ".key2.first" = specSegments ".key2.first" ∧
    getSubTree ".key2.first"
      (Value.obj (.cons "key2" (Value.obj (.cons "first" (.str "v3") .nil)) .nil))
      ".key2.first" = some (Value.str "v3") := by
  have h := getSubTree_descends_spec_segments ".key2.first"
    (Value.obj (.cons "key2" (Value.obj (.cons "first" (.str "v3") .nil)) .nil))
    (Value.str "v3") (by decide) (by decide)
  exact ⟨by decide, h.1, h.2⟩

/-! ## C1: default policy renders, strict policy aborts, on a missing key -/

theorem renderChunks_default_isOk (root : Value) (chunks : List Chunk) :
    (renderChunks false root chunks).isOk = true := by
  induction chunks with
  | nil => rfl
  | cons c rest ih =>
    cases c with
    | lit s =>
      simp only [renderChunks]
      cases h : renderChunks false root rest with
      | ok out => simp [h, Except.map, Except.isOk, Except.toBool]
      | error e => rw [h] at ih; simp [Except.isOk, Except.toBool] at ih
    | field p =>
      cases hlk : lookupPath root p with
      | some w =>
        simp only [renderChunks, hlk]
        cases h : renderChunks false root rest with
        | ok out => simp [h, Except.map, Except.isOk, Except.toBool]
        | error e => rw [h] at ih; simp [Except.isOk, Except.toBool] at ih
      | none =>
        simp only [renderChunks, hlk, Bool.false_eq_true, if_false]
        cases h : renderChunks false root rest with
        | ok out => simp [h, Except.map, Except.isOk, Except.toBool]
        | error e => rw [h] at ih; simp [Except.isOk, Except.toBool] at ih

/-- C1: whenever the template references a key that is missing from the
data root, rendering under the `default` policy (strict flag false)
completes without aborting, while rendering the identical template and
data under `missingkey=error` (strict flag true) aborts with a
`RenderErr` naming a referenced missing key. -/
theorem default_renders_strict_aborts (chunks : List Chunk) (root : Value)
    (p : List String) (hmem : Chunk.field p ∈ chunks)
    (hmiss : lookupPath root p = none) :
    (renderChunks false root chunks).isOk = true ∧
    ∃ q, Chunk.field q ∈ chunks ∧ lookupPath root q = none ∧
      renderChunks true root chunks = .error ⟨q⟩ := by
  refine ⟨renderChunks_default_isOk root chunks, ?_⟩
  induction chunks with
  | nil => simp at hmem
  | cons c rest ih =>
    cases c with
    | lit s =>
      have hmem' : Chunk.field p ∈ rest := by
        rcases List.mem_cons.mp hmem with heq | h
        · exact absurd heq (by simp)
        · exact h
      obtain ⟨q, hq1, hq2, hq3⟩ := ih hmem'
      exact ⟨q, List.mem_cons_of_mem _ hq1, hq2, by simp [renderChunks, hq3, Except.map]⟩
    | field p' =>
      cases hlk : lookupPath root p' with
      | none =>
        exact ⟨p', by simp, hlk, by simp [renderChunks, hlk]⟩
      | some w =>
        have hmem' : Chunk.field p ∈ rest := by
          rcases List.mem_cons.mp hmem with heq | h
          · injection heq with heq'
            rw [heq'] at hmiss
            rw [hmiss] at hlk
            exact absurd hlk (by simp)
          · exact h
        obtain ⟨q, hq1, hq2, hq3⟩ := ih hmem'
        exact ⟨q, List.mem_cons_of_mem _ hq1, hq2, by simp [renderChunks, hlk, hq3, Except.map]⟩

/-- Witness for C1: the one-action template referencing `missing` against
the empty mapping. -/
theorem default_renders_strict_aborts_witness :
    (renderChunks false (Value.obj .nil) [Chunk.field ["missing"]]).isOk = true ∧
    ∃ q, Chunk.field q ∈ [Chunk.field ["missing"]] ∧
      lookupPath (Value.obj .nil) q = none ∧
      renderChunks true (Value.obj .nil) [Chunk.field ["missing"]] = .error ⟨q⟩ :=
  default_renders_strict_aborts [Chunk.field ["missing"]] (Value.obj .nil)
    ["missing"] (by decide) (by decide)

/-! ## C4: the `.missing` scenario -/

/-- C4: rendering the template `{{ .missing }}` (written with escaped
braces) against the empty JSON object under the default policy yields
exactly the empty output, and under the strict policy a render error
naming the key `missing`. -/
theorem missing_key_scenario :
    parseJSONm "\x7b\x7d" = some (Value.obj .nil) ∧
    runTemplate false "\x7b\x7b" "\x7d\x7d" "\x7b\x7b .missing \x7d\x7d"
      (Value.obj .nil) = .rendered "" ∧
    runTemplate true "\x7b\x7b" "\x7d\x7d" "\x7b\x7b .missing \x7d\x7d"
      (Value.obj .nil) = .renderFailed ⟨["missing"]⟩ :=
  ⟨by decide, by decide, by decide⟩

/-! ## C9: a template without markers renders unchanged -/

theorem splitFirstSub_eq_none (sep text : List Char)
    (h : occursIn sep text = false) : splitFirstSub sep text = none := by
  induction text with
  | nil => rfl
  | cons c cs ih =>
    simp only [occursIn, Bool.or_eq_false_iff] at h
    simp only [splitFirstSub, h.1, Bool.false_eq_true, if_false, ih h.2]

/-- C9: for every template text containing no occurrence of the active
left delimiter, parsing and rendering produce the template text unchanged,
for any data root and either missing-key policy. -/
theorem render_no_markers (strict : Bool) (ld rd text : String) (root : Value)
    (h : occursIn ld.data text.data = false) :
    runTemplate strict ld rd text root = .rendered text := by
  cases text with
  | mk d =>
    simp only [runTemplate, parseTemplate, parseTpl,
      splitFirstSub_eq_none _ _ h, renderChunks, Except.map, List.append_nil]

/-- Witness for C9 on a concrete marker-free text. -/
theorem render_no_markers_witness :
    occursIn ("\x7b\x7b" : String).data ("hello world" : String).data = false ∧
    runTemplate false "\x7b\x7b" "\x7d\x7d" "hello world" Value.null
      = .rendered "hello world" :=
  ⟨by decide,
   render_no_markers false "\x7b\x7b" "\x7d\x7d" "hello world" Value.null (by decide)⟩

/-! ## C6: delimiter-spec validation -/

theorem getLast?_mem_of_eq : ∀ (l : List Char) (a : Char), l.getLast? = some a → a ∈ l
  | [x], a, h => by
    simp [List.getLast?] at h
    simp [h]
  | x :: y :: t, a, h => by
    rw [List.getLast?_cons_cons] at h
    exact List.mem_cons_of_mem _ (getLast?_mem_of_eq (y :: t) a h)

/-- A count of exactly one `:` splits the list into the part before the
separator, the separator, and the part after it, with no `:` on either
side. -/
theorem colon_split (l : List Char) (h : l.count ':' = 1) :
    l = l.takeWhile (· ≠ ':') ++ ':' :: (l.dropWhile (· ≠ ':')).drop 1
    ∧ ':' ∉ l.takeWhile (· ≠ ':') ∧ ':' ∉ (l.dropWhile (· ≠ ':')).drop 1 := by
  induction l with
  | nil => simp at h
  | cons c cs ih =>
    by_cases hc : c = ':'
    · subst hc
      have h0 : ':' ∉ cs := by
        have hcnt : cs.count ':' + 1 = 1 := by simpa using h
        exact List.count_eq_zero.mp (by omega)
      refine ⟨?_, ?_, ?_⟩ <;> simp [List.takeWhile_cons, List.dropWhile_cons, h0]
    · have h' : cs.count ':' = 1 := by
        rw [List.count_cons] at h
        simpa [hc] using h
      obtain ⟨h1, h2, h3⟩ := ih h'
      have htw : (c :: cs).takeWhile (· ≠ ':') = c :: cs.takeWhile (· ≠ ':') := by
        simp [List.takeWhile_cons, hc]
      have hdw : (c :: cs).dropWhile (· ≠ ':') = cs.dropWhile (· ≠ ':') := by
        simp [List.dropWhile_cons, hc]
      refine ⟨?_, ?_, ?_⟩
      · rw [htw, hdw, List.cons_append]
        exact congrArg (c :: ·) h1
      · rw [htw]
        intro hmem
        rcases List.mem_cons.mp hmem with hq | hq
        · exact hc hq.symm
        · exact h2 hq
      · rw [hdw]
        exact h3

/-- C6 counterexample: the claim requires the installed delimiter sides to
be distinct, but the source installs equal sides: the spec `a:a` passes
validation and installs left `a`, right `a`. -/
theorem setDelims_installs_equal_sides :
    ¬ (∀ (s l r : String), setDelims s = some (l, r) → l ≠ r) :=
  fun h => (h "a:a" "a" "a" (by decide)) rfl

/-- C6 amended: for every non-empty delimiter spec, validation fails (the
ParseError, before any template text is parsed) iff the spec does not
contain exactly one `:` or either side of that separator is empty;
otherwise the two sides — non-empty, though not necessarily distinct — are
installed as the left and right delimiters. -/
theorem setDelims_validation (delimiters : String) (hne : delimiters ≠ "") :
    (setDelims delimiters = none ↔
      (delimiters.data.count ':' ≠ 1 ∨ leftSide delimiters = ""
        ∨ rightSide delimiters = "")) ∧
    (∀ l r, setDelims delimiters = some (l, r) →
      l ≠ "" ∧ r ≠ "" ∧ delimiters.data = l.data ++ ':' :: r.data ∧
      l = leftSide delimiters ∧ r = rightSide delimiters) := by
  have hbne : (delimiters != "") = true := by simpa [bne_iff_ne] using hne
  have hmkeq : ∀ (a : List Char), (String.mk a = "") ↔ a = [] := by
    intro a
    constructor
    · intro hh; exact congrArg String.data hh
    · intro hh; rw [hh]
  by_cases hcount : delimiters.data.count ':' = 1
  · obtain ⟨hsplit, hta, hdr⟩ := colon_split delimiters.data hcount
    have hhead : delimiters.data.head? = some ':'
        ↔ delimiters.data.takeWhile (· ≠ ':') = [] := by
      cases ha : delimiters.data.takeWhile (· ≠ ':') with
      | nil =>
        rw [hsplit, ha]
        simp
      | cons x xs =>
        rw [hsplit, ha]
        simp only [List.cons_append, List.head?_cons, Option.some.injEq,
          List.cons_ne_nil, iff_false]
        intro hx
        exact hta (by rw [ha, hx]; exact List.mem_cons_self _ _)
    have hlast : delimiters.data.getLast? = some ':'
        ↔ (delimiters.data.dropWhile (· ≠ ':')).drop 1 = [] := by
      cases hb : (delimiters.data.dropWhile (· ≠ ':')).drop 1 with
      | nil =>
        rw [hsplit, hb]
        simp [List.getLast?_concat]
      | cons y ys =>
        rw [hsplit, hb]
        rw [List.getLast?_append_cons, List.getLast?_cons_cons]
        simp only [List.cons_ne_nil, iff_false]
        intro hy
        exact hdr (by rw [hb]; exact getLast?_mem_of_eq _ _ hy)
    by_cases hfail : delimiters.data.getLast? = some ':'
        ∨ delimiters.data.head? = some ':'
    · have hcond : delimiters.data.count ':' ≠ 1
          ∨ delimiters.data.getLast? = some ':'
          ∨ delimiters.data.head? = some ':' := Or.inr hfail
      constructor
      · rw [show setDelims delimiters = none by
          unfold setDelims
          rw [if_pos hbne, if_pos hcond]]
        simp only [true_iff]
        rcases hfail with hf | hf
        · exact Or.inr (Or.inr (by unfold rightSide; rw [hmkeq]; exact hlast.mp hf))
        · exact Or.inr (Or.inl (by unfold leftSide; rw [hmkeq]; exact hhead.mp hf))
      · intro l r hsome
        rw [show setDelims delimiters = none by
          unfold setDelims
          rw [if_pos hbne, if_pos hcond]] at hsome
        exact absurd hsome (by simp)
    · push_neg at hfail
      have hcond : ¬ (delimiters.data.count ':' ≠ 1
          ∨ delimiters.data.getLast? = some ':'
          ∨ delimiters.data.head? = some ':') := by
        push_neg
        exact ⟨by simpa using hcount, hfail.1, hfail.2⟩
      have hd : splitOnChar ':' delimiters.data
          = [delimiters.data.takeWhile (· ≠ ':'),
             (delimiters.data.dropWhile (· ≠ ':')).drop 1] := by
        conv_lhs => rw [hsplit]
        rw [splitOnChar_append _ _ _ hta, splitOnChar_no_sep _ _ hdr]
      have hsome : setDelims delimiters
          = some (String.mk (delimiters.data.takeWhile (· ≠ ':')),
                  String.mk ((delimiters.data.dropWhile (· ≠ ':')).drop 1)) := by
        unfold setDelims
        rw [if_pos hbne, if_neg hcond, hd]
        rfl
      constructor
      · rw [hsome]
        simp only [reduceCtorEq, false_iff]
        push_neg
        refine ⟨hcount, ?_, ?_⟩
        · unfold leftSide
          rw [Ne, hmkeq]
          intro hx
          exact absurd (hhead.mpr hx) hfail.2
        · unfold rightSide
          rw [Ne, hmkeq]
          intro hx
          exact absurd (hlast.mpr hx) hfail.1
      · intro l r hlr
        rw [hsome] at hlr
        injection hlr with hlr'
        injection hlr' with hl hr
        subst hl
        subst hr
        refine ⟨?_, ?_, by simpa using hsplit, rfl, rfl⟩
        · rw [Ne, hmkeq]
          intro hx
          exact absurd (hhead.mpr hx) hfail.2
        · rw [Ne, hmkeq]
          intro hx
          exact absurd (hlast.mpr hx) hfail.1
  · have hcond : delimiters.data.count ':' ≠ 1
        ∨ delimiters.data.getLast? = some ':'
        ∨ delimiters.data.head? = some ':' := Or.inl hcount
    have hnone : setDelims delimiters = none := by
      unfold setDelims
      rw [if_pos hbne, if_pos hcond]
    constructor
    · rw [hnone]
      simp only [true_iff]
      exact Or.inl hcount
    · intro l r hsome
      rw [hnone] at hsome
      exact absurd hsome (by simp)

/-- Witness for C6 at the concrete spec `ab:cd`. -/
theorem setDelims_validation_witness :
    ("ab:cd" : String) ≠ "" ∧
    ((setDelims "ab:cd" = none ↔
      (("ab:cd" : String).data.count ':' ≠ 1 ∨ leftSide "ab:cd" = ""
        ∨ rightSide "ab:cd" = "")) ∧
    (∀ l r, setDelims "ab:cd" = some (l, r) →
      l ≠ "" ∧ r ≠ "" ∧ ("ab:cd" : String).data = l.data ++ ':' :: r.data ∧
      l = leftSide "ab:cd" ∧ r = rightSide "ab:cd")) :=
  ⟨by decide, setDelims_validation "ab:cd" (by decide)⟩

/-! ## C7: JSON and YAML decode equal documents to equal values

Helper lemmas for the decoder/encoder round trip. -/

theorem digitsVal_append_digit (a : List Char) (c : Char) :
    digitsVal (a ++ [c]) = 10 * digitsVal a + charDigit c := by
  unfold digitsVal
  rw [List.foldl_append]
  rfl

theorem charDigit_digitChar (d : Nat) (h : d < 10) : charDigit (digitChar d) = d := by
  interval_cases d <;> decide

theorem isDigitCh_digitChar (d : Nat) (h : d < 10) : isDigitCh (digitChar d) = true := by
  interval_cases d <;> decide

theorem natCharsAux_val (fuel : Nat) : ∀ n, n ≤ fuel → digitsVal (natCharsAux fuel n) = n := by
  induction fuel with
  | zero =>
    intro n hn
    interval_cases n
    rfl
  | succ f ih =>
    intro n hn
    by_cases h0 : n = 0
    · subst h0
      rfl
    · have hdiv : n / 10 ≤ f := by
        have := Nat.div_lt_self (show 0 < n by omega) (show 1 < 10 by norm_num)
        omega
      simp only [natCharsAux, if_neg h0]
      rw [digitsVal_append_digit, ih (n / 10) hdiv,
        charDigit_digitChar _ (Nat.mod_lt _ (by norm_num))]
      omega

theorem natChars_val (n : Nat) : digitsVal (natChars n) = n := by
  by_cases h0 : n = 0
  · subst h0
    rfl
  · unfold natChars
    rw [if_neg h0]
    exact natCharsAux_val (n + 1) n (by omega)

theorem natCharsAux_digits (fuel : Nat) :
    ∀ n c, c ∈ natCharsAux fuel n → isDigitCh c = true := by
  induction fuel with
  | zero =>
    intro n c hc
    simp [natCharsAux] at hc
  | succ f ih =>
    intro n c hc
    by_cases h0 : n = 0
    · rw [natCharsAux, if_pos h0] at hc
      simp at hc
    · rw [natCharsAux, if_neg h0] at hc
      rcases List.mem_append.mp hc with hc | hc
      · exact ih _ _ hc
      · rw [List.mem_singleton] at hc
        subst hc
        exact isDigitCh_digitChar _ (Nat.mod_lt _ (by norm_num))

theorem natChars_digits (n : Nat) (c : Char) (hc : c ∈ natChars n) : isDigitCh c = true := by
  unfold natChars at hc
  split at hc
  · rw [List.mem_singleton] at hc
    subst hc
    decide
  · exact natCharsAux_digits _ _ _ hc

theorem natChars_ne_nil (n : Nat) : natChars n ≠ [] := by
  unfold natChars
  split
  · simp
  · rename_i h0
    rw [natCharsAux, if_neg h0]
    simp

theorem takeWhile_append_run (p : Char → Bool) (ds rest : List Char)
    (hds : ∀ c ∈ ds, p c = true)
    (hrest : ∀ c, rest.head? = some c → p c = false) :
    (ds ++ rest).takeWhile p = ds ∧ (ds ++ rest).dropWhile p = rest := by
  induction ds with
  | nil =>
    simp only [List.nil_append]
    cases rest with
    | nil => exact ⟨rfl, rfl⟩
    | cons r rs =>
      have hr := hrest r rfl
      simp [List.takeWhile_cons, List.dropWhile_cons, hr]
  | cons d ds' ih =>
    have hd : p d = true := hds d (List.mem_cons_self _ _)
    have ih' := ih (fun c hc => hds c (List.mem_cons_of_mem _ hc))
    simp [List.takeWhile_cons, List.dropWhile_cons, hd, ih'.1, ih'.2]

theorem skipWs_spaces_append (ws l : List Char) (h : ∀ c ∈ ws, c = ' ') :
    skipWs (ws ++ l) = skipWs l := by
  induction ws with
  | nil => rfl
  | cons w ws' ih =>
    have hw : w = ' ' := h w (List.mem_cons_self _ _)
    subst hw
    simpa [skipWs, List.dropWhile_cons] using ih (fun c hc => h c (List.mem_cons_of_mem _ hc))

theorem skipWs_cons_ne (c : Char) (l : List Char) (h : c ≠ ' ') :
    skipWs (c :: l) = c :: l := by
  simp [skipWs, List.dropWhile_cons, h]

theorem leadsWith_append_self (a rest : List Char) : leadsWith a (a ++ rest) = true := by
  induction a with
  | nil => rfl
  | cons c cs ih => simp [leadsWith, ih]

theorem leadsWith_cons_ne (c d : Char) (cs ds : List Char) (h : c ≠ d) :
    leadsWith (c :: cs) (d :: ds) = false := by
  simp [leadsWith, h]

theorem not_mem_quotes (qs : List Char) (hqs : ∀ c ∈ qs, c = '"' ∨ c = squote)
    (c : Char) (h1 : c ≠ '"') (h2 : c ≠ squote) : c ∉ qs := by
  intro h
  rcases hqs c h with e | e
  · exact h1 e
  · exact h2 e

theorem digit_props (c : Char) (h : isDigitCh c = true) :
    c ≠ '[' ∧ c ≠ ']' ∧ c ≠ '\x7b' ∧ c ≠ '\x7d' ∧ c ≠ ',' ∧ c ≠ '-' ∧ c ≠ ' '
      ∧ c ≠ 'n' ∧ c ≠ 't' ∧ c ≠ 'f' ∧ c ≠ '"' ∧ c ≠ squote := by
  have hn : 48 ≤ c.toNat ∧ c.toNat ≤ 57 := by
    unfold isDigitCh at h
    simpa [Bool.and_eq_true, decide_eq_true_eq] using h
  refine ⟨?_, ?_, ?_, ?_, ?_, ?_, ?_, ?_, ?_, ?_, ?_, ?_⟩ <;>
    (intro he; subst he; revert hn; decide)

theorem encValG_shape (q : Char) (sp : List Char) (hq : q = '"' ∨ q = squote) (v : Value) :
    ∃ c t, encValG q sp v = c :: t ∧ c ≠ ' ' ∧ c ≠ ']' ∧ c ≠ '\x7d' ∧ c ≠ ',' := by
  cases v with
  | null => exact ⟨'n', _, rfl, by decide, by decide, by decide, by decide⟩
  | bool b =>
    cases b with
    | false => exact ⟨'f', _, rfl, by decide, by decide, by decide, by decide⟩
    | true => exact ⟨'t', _, rfl, by decide, by decide, by decide, by decide⟩
  | num n =>
    show ∃ c t, intChars n = c :: t ∧ _
    unfold intChars
    by_cases hn : n < 0
    · rw [if_pos hn]
      exact ⟨'-', _, rfl, by decide, by decide, by decide, by decide⟩
    · rw [if_neg hn]
      obtain ⟨c, t, hct⟩ : ∃ c t, natChars n.toNat = c :: t := by
        cases h : natChars n.toNat with
        | nil => exact absurd h (natChars_ne_nil _)
        | cons c t => exact ⟨c, t, rfl⟩
      have hd := natChars_digits n.toNat c (by rw [hct]; exact List.mem_cons_self _ _)
      have hp := digit_props c hd
      exact ⟨c, t, hct, hp.2.2.2.2.2.2.1, hp.2.1, hp.2.2.2.1, hp.2.2.2.2.1⟩
  | str s =>
    rcases hq with h | h <;> subst h
    · exact ⟨'"', _, rfl, by decide, by decide, by decide, by decide⟩
    · exact ⟨squote, _, rfl, by decide, by decide, by decide, by decide⟩
  | arr items => exact ⟨'[', _, rfl, by decide, by decide, by decide, by decide⟩
  | obj fields => exact ⟨'\x7b', _, rfl, by decide, by decide, by decide, by decide⟩

theorem encValG_len_pos (q : Char) (sp : List Char) (hq : q = '"' ∨ q = squote) (v : Value) :
    1 ≤ (encValG q sp v).length := by
  obtain ⟨c, t, hct, -⟩ := encValG_shape q sp hq v
  rw [hct]
  simp


theorem head_boundary (c0 : Char) (h : isDigitCh c0 = false) (l : List Char) :
    ∀ c, (c0 :: l).head? = some c → isDigitCh c = false := by
  intro c hc
  rw [List.head?_cons, Option.some.injEq] at hc
  subst hc
  exact h

/-! Normal-form equations for the encoders (right-associated appends). -/

theorem encItemsG_nil_eq (q : Char) (sp : List Char) : encItemsG q sp VList.nil = [] := rfl

theorem encItemsG_one_eq (q : Char) (sp : List Char) (v : Value) :
    encItemsG q sp (VList.cons v VList.nil) = encValG q sp v := rfl

theorem encItemsG_cons_eq (q : Char) (sp : List Char) (v w : Value) (tl : VList) :
    encItemsG q sp (VList.cons v (VList.cons w tl))
      = encValG q sp v ++ (',' :: (sp ++ encItemsG q sp (VList.cons w tl))) := by
  rw [show encItemsG q sp (VList.cons v (VList.cons w tl))
    = encValG q sp v ++ (',' :: sp) ++ encItemsG q sp (VList.cons w tl) from rfl]
  simp [List.append_assoc, List.cons_append]

theorem encValG_str_eq (q : Char) (sp : List Char) (s : String) :
    encValG q sp (Value.str s) = q :: (s.data ++ [q]) := rfl

theorem encValG_arr_eq (q : Char) (sp : List Char) (items : VList) :
    encValG q sp (Value.arr items) = '[' :: (encItemsG q sp items ++ [']']) := rfl

theorem encValG_obj_eq (q : Char) (sp : List Char) (fields : FList) :
    encValG q sp (Value.obj fields) = '\x7b' :: (encFieldsG q sp fields ++ ['\x7d']) := rfl

theorem encFieldsG_nil_eq (q : Char) (sp : List Char) : encFieldsG q sp FList.nil = [] := rfl

theorem encFieldsG_one_eq (q : Char) (sp : List Char) (k : String) (v : Value) :
    encFieldsG q sp (FList.cons k v FList.nil)
      = q :: (k.data ++ (q :: (':' :: (sp ++ encValG q sp v)))) := by
  rw [show encFieldsG q sp (FList.cons k v FList.nil)
    = q :: k.data ++ q :: ':' :: sp ++ encValG q sp v from rfl]
  simp [List.append_assoc, List.cons_append]

theorem encFieldsG_cons_eq (q : Char) (sp : List Char) (k : String) (v : Value)
    (k1 : String) (w : Value) (tl : FList) :
    encFieldsG q sp (FList.cons k v (FList.cons k1 w tl))
      = q :: (k.data ++ (q :: (':' :: (sp ++ (encValG q sp v
          ++ (',' :: (sp ++ encFieldsG q sp (FList.cons k1 w tl)))))))) := by
  rw [show encFieldsG q sp (FList.cons k v (FList.cons k1 w tl))
    = q :: k.data ++ q :: ':' :: sp ++ encValG q sp v ++ ',' :: sp
      ++ encFieldsG q sp (FList.cons k1 w tl) from rfl]
  simp [List.append_assoc, List.cons_append]


/-- The combined round-trip statement, by induction on the parser fuel:
with enough fuel, each parser reads back exactly the value its encoder
wrote, leaving the rest of the input untouched. -/
theorem rtAll (qs : List Char) (q : Char) (sp : List Char)
    (hqs : ∀ c ∈ qs, c = '"' ∨ c = squote) (hq : q ∈ qs) (hsp : ∀ c ∈ sp, c = ' ') :
    ∀ fuel : Nat,
    (∀ (v : Value), wfV v = true → ∀ ws rest : List Char,
      (∀ c ∈ ws, c = ' ') → (∀ c, rest.head? = some c → isDigitCh c = false) →
      (encValG q sp v).length ≤ fuel →
      parseVal qs fuel (ws ++ encValG q sp v ++ rest) = some (v, rest)) ∧
    (∀ (v : Value) (tl : VList), wfItems (VList.cons v tl) = true →
      ∀ ws rest : List Char, (∀ c ∈ ws, c = ' ') →
      (encItemsG q sp (VList.cons v tl)).length + 1 ≤ fuel →
      parseItems qs fuel (ws ++ encItemsG q sp (VList.cons v tl) ++ ']' :: rest)
        = some (VList.cons v tl, rest)) ∧
    (∀ (k : String) (v : Value) (tl : FList), wfFields (FList.cons k v tl) = true →
      ∀ ws rest : List Char, (∀ c ∈ ws, c = ' ') →
      (encFieldsG q sp (FList.cons k v tl)).length + 1 ≤ fuel →
      parseFields qs fuel (ws ++ encFieldsG q sp (FList.cons k v tl) ++ '\x7d' :: rest)
        = some (FList.cons k v tl, rest)) := by
  have hqor : q = '"' ∨ q = squote := hqs q hq
  have hqsp : q ≠ ' ' := by rcases hqor with h | h <;> (subst h; decide)
  have hqcb : q ≠ '\x7d' := by rcases hqor with h | h <;> (subst h; decide)
  intro fuel
  induction fuel with
  | zero =>
    refine ⟨?_, ?_, ?_⟩
    · intro v hwf ws rest hws hrest hfuel
      exfalso
      have := encValG_len_pos q sp hqor v
      omega
    · intro v tl hwf ws rest hws hfuel
      exfalso
      omega
    · intro k v tl hwf ws rest hws hfuel
      exfalso
      omega
  | succ f ih =>
    obtain ⟨ihV, ihI, ihF⟩ := ih
    refine ⟨?_, ?_, ?_⟩
    · -- parseVal reads back encValG
      intro v hwf ws rest hws hrest hfuel
      have hskip : skipWs (ws ++ encValG q sp v ++ rest) = encValG q sp v ++ rest := by
        obtain ⟨c0, t0, hct, hc0sp, -, -, -⟩ := encValG_shape q sp hqor v
        rw [List.append_assoc, skipWs_spaces_append ws _ hws, hct, List.cons_append,
          skipWs_cons_ne _ _ hc0sp, ← List.cons_append]
      rw [parseVal, hskip]
      cases v with
      | null =>
        rw [show encValG q sp Value.null = 'n' :: 'u' :: 'l' :: 'l' :: [] from rfl]
        simp only [List.cons_append, List.nil_append]
        have h1 : ('n' : Char) ∉ qs := not_mem_quotes qs hqs _ (by decide) (by decide)
        have h4 : leadsWith "null".data ('n' :: 'u' :: 'l' :: 'l' :: rest) = true := by
          simpa using leadsWith_append_self "null".data rest
        simp only [h1, if_false, if_neg (by decide : ¬('n' : Char) = '['),
          if_neg (by decide : ¬('n' : Char) = '\x7b'), h4, if_true]
        rfl
      | bool b =>
        cases b with
        | true =>
          rw [show encValG q sp (Value.bool true) = 't' :: 'r' :: 'u' :: 'e' :: [] from rfl]
          simp only [List.cons_append, List.nil_append]
          have h1 : ('t' : Char) ∉ qs := not_mem_quotes qs hqs _ (by decide) (by decide)
          have h4 : leadsWith "null".data ('t' :: 'r' :: 'u' :: 'e' :: rest) = false := by
            rw [show "null".data = 'n' :: 'u' :: 'l' :: 'l' :: [] from rfl]
            exact leadsWith_cons_ne _ _ _ _ (by decide)
          have h5 : leadsWith "true".data ('t' :: 'r' :: 'u' :: 'e' :: rest) = true := by
            simpa using leadsWith_append_self "true".data rest
          simp only [h1, if_false, if_neg (by decide : ¬('t' : Char) = '['),
            if_neg (by decide : ¬('t' : Char) = '\x7b'), h4, h5, if_true]
          rfl
        | false =>
          rw [show encValG q sp (Value.bool false)
            = 'f' :: 'a' :: 'l' :: 's' :: 'e' :: [] from rfl]
          simp only [List.cons_append, List.nil_append]
          have h1 : ('f' : Char) ∉ qs := not_mem_quotes qs hqs _ (by decide) (by decide)
          have h4 : leadsWith "null".data ('f' :: 'a' :: 'l' :: 's' :: 'e' :: rest) = false := by
            rw [show "null".data = 'n' :: 'u' :: 'l' :: 'l' :: [] from rfl]
            exact leadsWith_cons_ne _ _ _ _ (by decide)
          have h5 : leadsWith "true".data ('f' :: 'a' :: 'l' :: 's' :: 'e' :: rest) = false := by
            rw [show "true".data = 't' :: 'r' :: 'u' :: 'e' :: [] from rfl]
            exact leadsWith_cons_ne _ _ _ _ (by decide)
          have h6 : leadsWith "false".data ('f' :: 'a' :: 'l' :: 's' :: 'e' :: rest) = true := by
            simpa using leadsWith_append_self "false".data rest
          simp only [h1, if_false, if_neg (by decide : ¬('f' : Char) = '['),
            if_neg (by decide : ¬('f' : Char) = '\x7b'), h4, h5, h6, if_true]
          rfl
      | num n =>
        rw [show encValG q sp (Value.num n) = intChars n from rfl, intChars]
        have hrun := takeWhile_append_run isDigitCh (natChars n.natAbs) rest
          (fun c hc => natChars_digits _ c hc) hrest
        have hrun' := takeWhile_append_run isDigitCh (natChars n.toNat) rest
          (fun c hc => natChars_digits _ c hc) hrest
        by_cases hneg : n < 0
        · rw [if_pos hneg]
          simp only [List.cons_append]
          have h1 : ('-' : Char) ∉ qs := not_mem_quotes qs hqs _ (by decide) (by decide)
          obtain ⟨d, t, hdt⟩ : ∃ d t, natChars n.natAbs = d :: t := by
            cases h : natChars n.natAbs with
            | nil => exact absurd h (natChars_ne_nil _)
            | cons d t => exact ⟨d, t, rfl⟩
          have h4 : leadsWith "null".data ('-' :: (natChars n.natAbs ++ rest)) = false := by
            rw [show "null".data = 'n' :: 'u' :: 'l' :: 'l' :: [] from rfl]
            exact leadsWith_cons_ne _ _ _ _ (by decide)
          have h5 : leadsWith "true".data ('-' :: (natChars n.natAbs ++ rest)) = false := by
            rw [show "true".data = 't' :: 'r' :: 'u' :: 'e' :: [] from rfl]
            exact leadsWith_cons_ne _ _ _ _ (by decide)
          have h6 : leadsWith "false".data ('-' :: (natChars n.natAbs ++ rest)) = false := by
            rw [show "false".data = 'f' :: 'a' :: 'l' :: 's' :: 'e' :: [] from rfl]
            exact leadsWith_cons_ne _ _ _ _ (by decide)
          simp only [h1, if_false, if_neg (by decide : ¬('-' : Char) = '['),
            if_neg (by decide : ¬('-' : Char) = '\x7b'), h4, h5, h6,
            if_pos (rfl : ('-' : Char) = '-')]
          rw [hrun.1, hrun.2, hdt]
          have hval : digitsVal (d :: t) = n.natAbs := by
            rw [← hdt]
            exact natChars_val _
          simp only [hval]
          have hofn : -(Int.ofNat n.natAbs) = n := by
            rw [Int.ofNat_eq_coe]
            omega
          rw [hofn]
          simp
        · rw [if_neg hneg]
          obtain ⟨d, t, hdt⟩ : ∃ d t, natChars n.toNat = d :: t := by
            cases h : natChars n.toNat with
            | nil => exact absurd h (natChars_ne_nil _)
            | cons d t => exact ⟨d, t, rfl⟩
          have hd : isDigitCh d = true :=
            natChars_digits _ d (by rw [hdt]; exact List.mem_cons_self _ _)
          have hp := digit_props d hd
          have h1 : d ∉ qs :=
            not_mem_quotes qs hqs _ hp.2.2.2.2.2.2.2.2.2.2.1 hp.2.2.2.2.2.2.2.2.2.2.2
          rw [hdt, List.cons_append]
          have h4 : leadsWith "null".data (d :: (t ++ rest)) = false := by
            rw [show "null".data = 'n' :: 'u' :: 'l' :: 'l' :: [] from rfl]
            exact leadsWith_cons_ne _ _ _ _ (Ne.symm hp.2.2.2.2.2.2.2.1)
          have h5 : leadsWith "true".data (d :: (t ++ rest)) = false := by
            rw [show "true".data = 't' :: 'r' :: 'u' :: 'e' :: [] from rfl]
            exact leadsWith_cons_ne _ _ _ _ (Ne.symm hp.2.2.2.2.2.2.2.2.1)
          have h6 : leadsWith "false".data (d :: (t ++ rest)) = false := by
            rw [show "false".data = 'f' :: 'a' :: 'l' :: 's' :: 'e' :: [] from rfl]
            exact leadsWith_cons_ne _ _ _ _ (Ne.symm hp.2.2.2.2.2.2.2.2.2.1)
          simp only [h1, if_false, if_neg hp.1, if_neg hp.2.2.1, h4, h5, h6,
            if_neg hp.2.2.2.2.2.1, hd, if_true]
          have hcons : d :: (t ++ rest) = natChars n.toNat ++ rest := by
            rw [hdt, List.cons_append]
          rw [hcons, hrun'.1, hrun'.2, natChars_val]
          have hofn : Int.ofNat n.toNat = n := by
            rw [Int.ofNat_eq_coe]
            omega
          rw [hofn]
          simp
      | str s =>
        have hplain : ∀ c ∈ s.data, c ≠ '"' ∧ c ≠ squote := by
          intro c hc
          have h := hwf
          simp only [wfV, plainChars, List.all_eq_true] at h
          simpa [Bool.and_eq_true, decide_eq_true_eq] using h c hc
        have hrun := takeWhile_append_run (fun x => decide (x ≠ q)) s.data (q :: rest)
          (by
            intro c hc
            rcases hqor with hq' | hq' <;>
              simp [decide_eq_true_eq, hq', (hplain c hc).1, (hplain c hc).2])
          (by
            intro c hc
            rw [List.head?_cons, Option.some.injEq] at hc
            subst hc
            simp)
        rw [encValG_str_eq q sp s]
        simp only [List.cons_append, List.append_assoc, List.singleton_append,
          List.nil_append, hq, if_true, hrun.1, hrun.2]
      | arr items =>
        have hwfI : wfItems items = true := hwf
        have h1 : ('[' : Char) ∉ qs := not_mem_quotes qs hqs _ (by decide) (by decide)
        have e1 : (('[' : Char) = '[') = True := by simp
        rw [encValG_arr_eq q sp items]
        simp only [List.cons_append, List.append_assoc, List.singleton_append,
          List.nil_append, h1, if_false, e1, if_true]
        cases items with
        | nil =>
          rw [encItemsG_nil_eq q sp, List.nil_append,
            skipWs_cons_ne _ _ (show (']' : Char) ≠ ' ' by decide)]
          rfl
        | cons v tl =>
          obtain ⟨c1, t1, hct1, hc1sp, hc1rb, -, -⟩ := encValG_shape q sp hqor v
          have hk : ∃ k, encItemsG q sp (VList.cons v tl) = encValG q sp v ++ k := by
            cases tl with
            | nil => exact ⟨[], by rw [encItemsG_one_eq q sp v, List.append_nil]⟩
            | cons w tl' =>
              exact ⟨',' :: (sp ++ encItemsG q sp (VList.cons w tl')),
                encItemsG_cons_eq q sp v w tl'⟩
          obtain ⟨k, hk⟩ := hk
          have hshape : encItemsG q sp (VList.cons v tl) ++ ']' :: rest
              = c1 :: (t1 ++ (k ++ ']' :: rest)) := by
            rw [hk, hct1]
            simp [List.cons_append, List.append_assoc]
          have hitems := ihI v tl hwfI [] rest (by simp)
            (by
              rw [encValG_arr_eq q sp (VList.cons v tl)] at hfuel
              simp only [List.length_cons, List.length_append, List.length_nil] at hfuel
              omega)
          rw [List.nil_append] at hitems
          rw [hshape, skipWs_cons_ne _ _ hc1sp]
          split
          · rename_i heq
            exfalso
            injection heq with hh _
            exact hc1rb hh
          · rw [← hshape, hitems]
      | obj fields =>
        have hwfF : wfFields fields = true := hwf
        have h1 : ('\x7b' : Char) ∉ qs := not_mem_quotes qs hqs _ (by decide) (by decide)
        have e1 : (('\x7b' : Char) = '[') = False := by simp
        have e2 : (('\x7b' : Char) = '\x7b') = True := by simp
        rw [encValG_obj_eq q sp fields]
        simp only [List.cons_append, List.append_assoc, List.singleton_append,
          List.nil_append, h1, if_false, e1, e2, if_true]
        cases fields with
        | nil =>
          rw [encFieldsG_nil_eq q sp, List.nil_append,
            skipWs_cons_ne _ _ (show ('\x7d' : Char) ≠ ' ' by decide)]
          rfl
        | cons k v tl =>
          have hK : ∃ K, encFieldsG q sp (FList.cons k v tl) = q :: K := by
            cases tl with
            | nil => exact ⟨_, encFieldsG_one_eq q sp k v⟩
            | cons k1 w tl' => exact ⟨_, encFieldsG_cons_eq q sp k v k1 w tl'⟩
          obtain ⟨K, hK⟩ := hK
          have hshape : encFieldsG q sp (FList.cons k v tl) ++ '\x7d' :: rest
              = q :: (K ++ '\x7d' :: rest) := by
            rw [hK, List.cons_append]
          have hflds := ihF k v tl hwfF [] rest (by simp)
            (by
              rw [encValG_obj_eq q sp (FList.cons k v tl)] at hfuel
              simp only [List.length_cons, List.length_append, List.length_nil] at hfuel
              omega)
          rw [List.nil_append] at hflds
          rw [hshape, skipWs_cons_ne _ _ hqsp]
          split
          · rename_i heq
            exfalso
            injection heq with hh _
            exact hqcb hh
          · rw [← hshape, hflds]
    · -- parseItems reads back encItemsG
      intro v tl hwf ws rest hws hfuel
      have hwf2 : wfV v = true ∧ wfItems tl = true := by
        simpa [wfItems, Bool.and_eq_true] using hwf
      rw [parseItems]
      cases tl with
      | nil =>
        have hPV := ihV v hwf2.1 ws (']' :: rest) hws
          (head_boundary ']' (by decide) rest)
          (by
            rw [encItemsG_one_eq q sp v] at hfuel
            omega)
        rw [encItemsG_one_eq q sp v]
        simp only [hPV, skipWs_cons_ne _ _ (show (']' : Char) ≠ ' ' by decide)]
      | cons w tl' =>
        have hlen := encValG_len_pos q sp hqor v
        have hPV := ihV v hwf2.1 ws
          (',' :: (sp ++ (encItemsG q sp (VList.cons w tl') ++ ']' :: rest))) hws
          (head_boundary ',' (by decide) _)
          (by
            rw [encItemsG_cons_eq q sp v w tl'] at hfuel
            simp only [List.length_append, List.length_cons] at hfuel
            omega)
        simp only [List.append_assoc] at hPV
        have hitems := ihI w tl' hwf2.2 sp rest hsp
          (by
            rw [encItemsG_cons_eq q sp v w tl'] at hfuel
            simp only [List.length_append, List.length_cons] at hfuel
            omega)
        simp only [List.append_assoc] at hitems
        rw [encItemsG_cons_eq q sp v w tl']
        simp only [List.append_assoc, List.cons_append]
        simp only [hPV, skipWs_cons_ne _ _ (show (',' : Char) ≠ ' ' by decide), hitems]
    · -- parseFields reads back encFieldsG
      intro k v tl hwf ws rest hws hfuel
      have hwf3 : plainChars k.data = true ∧ wfV v = true ∧ wfFields tl = true := by
        simpa [wfFields, Bool.and_eq_true, and_assoc] using hwf
      have hplain : ∀ c ∈ k.data, c ≠ '"' ∧ c ≠ squote := by
        intro c hc
        have h := hwf3.1
        simp only [plainChars, List.all_eq_true] at h
        simpa [Bool.and_eq_true, decide_eq_true_eq] using h c hc
      have hkeyrun : ∀ (after : List Char),
          (k.data ++ q :: after).takeWhile (fun x => decide (x ≠ q)) = k.data ∧
          (k.data ++ q :: after).dropWhile (fun x => decide (x ≠ q)) = q :: after := by
        intro after
        exact takeWhile_append_run _ k.data (q :: after)
          (by
            intro c hc
            rcases hqor with hq' | hq' <;>
              simp [decide_eq_true_eq, hq', (hplain c hc).1, (hplain c hc).2])
          (by
            intro c hc
            rw [List.head?_cons, Option.some.injEq] at hc
            subst hc
            simp)
      rw [parseFields]
      cases tl with
      | nil =>
        have hPV := ihV v hwf3.2.1 sp ('\x7d' :: rest) hsp
          (head_boundary '\x7d' (by decide) rest)
          (by
            rw [encFieldsG_one_eq q sp k v] at hfuel
            simp only [List.length_append, List.length_cons] at hfuel
            omega)
        simp only [List.append_assoc] at hPV
        rw [encFieldsG_one_eq q sp k v]
        simp only [List.append_assoc, List.cons_append]
        have hskip2 : skipWs (ws ++ q :: (k.data ++ (q :: (':' :: (sp
              ++ (encValG q sp v ++ '\x7d' :: rest))))))
            = q :: (k.data ++ (q :: (':' :: (sp ++ (encValG q sp v ++ '\x7d' :: rest))))) := by
          rw [skipWs_spaces_append ws _ hws, skipWs_cons_ne _ _ hqsp]
        simp only [hskip2, hq, if_true,
          hkeyrun (':' :: (sp ++ (encValG q sp v ++ '\x7d' :: rest))),
          skipWs_cons_ne _ _ (show (':' : Char) ≠ ' ' by decide), hPV,
          skipWs_cons_ne _ _ (show ('\x7d' : Char) ≠ ' ' by decide)]
      | cons k1 w tl' =>
        have hlen := encValG_len_pos q sp hqor v
        have hPV := ihV v hwf3.2.1 sp
          (',' :: (sp ++ (encFieldsG q sp (FList.cons k1 w tl') ++ '\x7d' :: rest))) hsp
          (head_boundary ',' (by decide) _)
          (by
            rw [encFieldsG_cons_eq q sp k v k1 w tl'] at hfuel
            simp only [List.length_append, List.length_cons] at hfuel
            omega)
        simp only [List.append_assoc] at hPV
        have hflds := ihF k1 w tl' hwf3.2.2 sp rest hsp
          (by
            rw [encFieldsG_cons_eq q sp k v k1 w tl'] at hfuel
            simp only [List.length_append, List.length_cons] at hfuel
            omega)
        simp only [List.append_assoc] at hflds
        rw [encFieldsG_cons_eq q sp k v k1 w tl']
        simp only [List.append_assoc, List.cons_append]
        have hskip2 : skipWs (ws ++ q :: (k.data ++ (q :: (':' :: (sp ++ (encValG q sp v
              ++ (',' :: (sp ++ (encFieldsG q sp (FList.cons k1 w tl') ++ '\x7d' :: rest)))))))))
            = q :: (k.data ++ (q :: (':' :: (sp ++ (encValG q sp v
              ++ (',' :: (sp ++ (encFieldsG q sp (FList.cons k1 w tl') ++ '\x7d' :: rest)))))))) := by
          rw [skipWs_spaces_append ws _ hws, skipWs_cons_ne _ _ hqsp]
        simp only [hskip2, hq, if_true,
          hkeyrun (':' :: (sp ++ (encValG q sp v
            ++ (',' :: (sp ++ (encFieldsG q sp (FList.cons k1 w tl') ++ '\x7d' :: rest)))))),
          skipWs_cons_ne _ _ (show (':' : Char) ≠ ' ' by decide), hPV,
          skipWs_cons_ne _ _ (show (',' : Char) ≠ ' ' by decide), hflds]

theorem parseDoc_enc (qs : List Char) (q : Char) (sp : List Char)
    (hqs : ∀ c ∈ qs, c = '"' ∨ c = squote) (hq : q ∈ qs) (hsp : ∀ c ∈ sp, c = ' ')
    (v : Value) (hwf : wfV v = true) :
    parseDoc qs (encValG q sp v) = some v := by
  unfold parseDoc
  have h := (rtAll qs q sp hqs hq hsp ((encValG q sp v).length + 1)).1 v hwf [] []
    (by simp) (by simp) (by omega)
  rw [List.nil_append, List.append_nil] at h
  rw [h]
  rfl

/-- C7: a JSON document and a YAML (flow-style) document encoding the same
structure — same keys, same values, written by the two canonical encoders —
decode to equal Generic Values under the two decoders, both equal to the
encoded value. -/
theorem json_yaml_decode_equal (v : Value) (hwf : wfV v = true) :
    parseJSONm (jsonEncode v) = some v ∧
    parseYAMLm (yamlEncodeFlow v) = some v ∧
    parseJSONm (jsonEncode v) = parseYAMLm (yamlEncodeFlow v) := by
  have h1 : parseJSONm (jsonEncode v) = some v := by
    show parseDoc ['"'] (String.mk (encValG '"' [] v)).data = some v
    exact parseDoc_enc ['"'] '"' []
      (by
        intro c hc
        rw [List.mem_singleton] at hc
        exact Or.inl hc)
      (List.mem_singleton.mpr rfl)
      (by intro c hc; simp at hc)
      v hwf
  have h2 : parseYAMLm (yamlEncodeFlow v) = some v := by
    show parseDoc ['"', squote] (String.mk (encValG squote [' '] v)).data = some v
    exact parseDoc_enc ['"', squote] squote [' ']
      (by
        intro c hc
        rcases List.mem_cons.mp hc with h | h
        · exact Or.inl h
        · rw [List.mem_singleton] at h
          exact Or.inr h)
      (by
        apply List.mem_cons_of_mem
        exact List.mem_singleton.mpr rfl)
      (by
        intro c hc
        rw [List.mem_singleton] at hc
        exact hc)
      v hwf
  exact ⟨h1, h2, by rw [h1, h2]⟩

/-- Witness for C7 at a value exercising every constructor. -/
theorem json_yaml_decode_equal_witness :
    wfV (Value.obj (FList.cons "a" (Value.num 10)
      (FList.cons "b" (Value.arr (VList.cons (Value.bool true)
        (VList.cons Value.null (VList.cons (Value.str "x") VList.nil))))
      FList.nil))) = true ∧
    (parseJSONm (jsonEncode (Value.obj (FList.cons "a" (Value.num 10)
      (FList.cons "b" (Value.arr (VList.cons (Value.bool true)
        (VList.cons Value.null (VList.cons (Value.str "x") VList.nil))))
      FList.nil))))
      = some (Value.obj (FList.cons "a" (Value.num 10)
        (FList.cons "b" (Value.arr (VList.cons (Value.bool true)
          (VList.cons Value.null (VList.cons (Value.str "x") VList.nil))))
        FList.nil))) ∧
    parseYAMLm (yamlEncodeFlow (Value.obj (FList.cons "a" (Value.num 10)
      (FList.cons "b" (Value.arr (VList.cons (Value.bool true)
        (VList.cons Value.null (VList.cons (Value.str "x") VList.nil))))
      FList.nil))))
      = some (Value.obj (FList.cons "a" (Value.num 10)
        (FList.cons "b" (Value.arr (VList.cons (Value.bool true)
          (VList.cons Value.null (VList.cons (Value.str "x") VList.nil))))
        FList.nil))) ∧
    parseJSONm (jsonEncode (Value.obj (FList.cons "a" (Value.num 10)
      (FList.cons "b" (Value.arr (VList.cons (Value.bool true)
        (VList.cons Value.null (VList.cons (Value.str "x") VList.nil))))
      FList.nil))))
      = parseYAMLm (yamlEncodeFlow (Value.obj (FList.cons "a" (Value.num 10)
        (FList.cons "b" (Value.arr (VList.cons (Value.bool true)
          (VList.cons Value.null (VList.cons (Value.str "x") VList.nil))))
        FList.nil))))) :=
  ⟨by decide, json_yaml_decode_equal _ (by decide)⟩
